import Mathlib

/-!
Verification of the generator-utils combinator library.

The repository contains several generations of the same library:

* `lib/index.js` — the original ES5 build, where a sequence is an object with
  a `next()` method returning `{value, done}`;
* `src/src/index.ts` — a TypeScript rewrite using native generators;
* `src/unnamed/part_001` — a later TypeScript version that adds `copy` and a
  `copy`-based lazy `combine`.

We embed each implementation that the claims cite.  Pure list-transforming
code is embedded as functions on `List`; lazily pulled sequences are embedded
as streams `Nat → Option α` (`none` marks exhaustion at that pull) or as
explicit state machines with a fuel parameter, so that divergence of the
JavaScript code is visible as `none` for every fuel.
-/

namespace GenUtils

/-! ### JavaScript values

The ES5 implementation tests values for truthiness (in `combine`) and for
definedness (in `filterMap`), so claims about it need a small model of
untyped JavaScript values. -/

inductive JSValue : Type where
  | num (n : Int)
  | bool (b : Bool)
  | null
  | undefined
  | arr (elems : List JSValue)

/-- Truthiness of a JavaScript value: `0`, `false`, `null` and `undefined`
are falsy; arrays are always truthy. -/
def truthy : JSValue → Bool
  | .num n => n != 0
  | .bool b => b
  | .null => false
  | .undefined => false
  | .arr _ => true

/-- One iteration result of the `next()` protocol.  `value = none` models
the JavaScript value `undefined` in the `value` field. -/
structure IterRes (α : Type) where
  done : Bool
  value : Option α
deriving DecidableEq, Repr

/-! ### take — both implementations

A deterministic sequence driven only by `take` is modelled as the stream of
results its successive `next()` calls return: `next : Nat → IterRes α`, where
`next i` is the result of the `(i+1)`-st call.

`lib/index.js` take:

```js
while (count-- > 0) {
  var iteration = generator.next();
  if (iteration.done) { break; }
  result.push(iteration.value);
}
```

`src/src/index.ts` take additionally pushes the final done value if defined:

```ts
if (iteration.done) {
  if (iteration.value !== undefined) { result.push(iteration.value); }
  break;
}
```

Both loops execute at most `count.toNat` iterations (the JS loop
`while (count-- > 0)` runs `max(count, 0)` times for integer `count`).
Each embedding returns the produced array together with the number of
`next()` calls made (the instrumentation needed by the claims). -/

def takeGo (next : Nat → IterRes α) : Nat → Nat → List (Option α) × Nat
  | _, 0 => ([], 0)
  | idx, n + 1 =>
    let iteration := next idx
    if iteration.done then ([], 1)
    else
      let rest := takeGo next (idx + 1) n
      (iteration.value :: rest.1, rest.2 + 1)

/-- Embedding of `take` from `lib/index.js` (identical loop in the ES6 copy
and `src/unnamed/part_001`): first component is the result array, second the
number of `next()` calls. -/
def take (next : Nat → IterRes α) (count : Int) : List (Option α) × Nat :=
  takeGo next 0 count.toNat

def takeTSGo (next : Nat → IterRes α) : Nat → Nat → List (Option α) × Nat
  | _, 0 => ([], 0)
  | idx, n + 1 =>
    let iteration := next idx
    if iteration.done then
      (if iteration.value.isSome then [iteration.value] else [], 1)
    else
      let rest := takeTSGo next (idx + 1) n
      (iteration.value :: rest.1, rest.2 + 1)

/-- Embedding of `take` from `src/src/index.ts`: like `take` but when the
done iteration carries a defined value it pushes that value. -/
def takeTS (next : Nat → IterRes α) (count : Int) : List (Option α) × Nat :=
  takeTSGo next 0 count.toNat

/-! ### range

```js
export function range(min, max) {
  var i = min;
  return { next: function() {
    if (i <= max) { return { value: i++, done: false }; }
    else { return { value: null, done: true }; }
  } };
}
```

The generator versions run the same loop.  Denotationally the sequence of
values produced before the done signal is: -/

def range (mn mx : Int) : List Int :=
  if mn ≤ mx then mn :: range (mn + 1) mx else []
termination_by (mx + 1 - mn).toNat
decreasing_by omega

/-! ### concat — lib/index.js

```js
switch (generators.length) {
  case 0: return { next: function() { return { value: null, done: true }; } };
  case 1: return generators[0];
  default: ... sequential drain ...
}
```

Sequences are exposed by handle; the one-element case returns the very
argument.  In the denotational list model the zero case is the empty
sequence and the default case drains each generator in order, which for
well-behaved finite inputs concatenates their value lists. -/

def concat : List (List α) → List α
  | [] => []
  | [g] => g
  | gs => gs.flatten

/-! ### combine — src/src/index.ts (generator version)

```ts
switch (generators.length) {
  case 0: return;
  case 1: for (let value of generators[0]) { yield [value]; } break;
  default:
    let [head, ...tail] = generators;
    let headValues = Array.from(head);
    let tailCombinations = Array.from(combine(tail));
    for (let headValue of headValues)
      for (let tailCombination of tailCombinations)
        yield [headValue, ...tailCombination];
}
```
-/

def combineTS : List (List α) → List (List α)
  | [] => []
  | [g] => g.map (fun value => [value])
  | head :: tail =>
    head.flatMap (fun headValue =>
      (combineTS tail).map (fun tailCombination => headValue :: tailCombination))

/-! ### filterMap — both implementations

A caller-supplied `transform(value, skip)` may call `skip()` (setting a
local flag) and returns a value.  Denotationally a transform is a function
from the input value to the pair (skip flag after the call, returned value).

`src/unnamed/part_001` (same code in `src/src/index.ts`):

```ts
for (const value of iterable) {
  let skipped = false;
  const mappedValue = transform(value, () => { skipped = true; });
  if (!skipped && mappedValue !== undefined) { yield mappedValue; }
}
```

The returned value is `U | undefined`, modelled as `Option β`.

`lib/index.js`:

```js
var iteration = generator.next();
if (iteration.done) { return iteration; }
var skipped = false;
function skip() { skipped = true; }
iteration.value = transform(iteration.value, skip);
if (skipped) { return next(); }
return iteration;
```

Here the returned value is an untyped JavaScript value and is yielded
whenever `skip` was not called, with no test for `undefined`. -/

def filterMapGen (transform : α → Bool × Option β) : List α → List β
  | [] => []
  | value :: rest =>
    match transform value with
    | (false, some mappedValue) => mappedValue :: filterMapGen transform rest
    | _ => filterMapGen transform rest

def filterMap (transform : JSValue → Bool × JSValue) : List JSValue → List JSValue
  | [] => []
  | value :: rest =>
    match transform value with
    | (true, _) => filterMap transform rest
    | (false, mappedValue) => mappedValue :: filterMap transform rest

/-- Instrumented version of `filterMapGen` that also records the list of
values the transform was invoked on, in invocation order. -/
def filterMapGenTrace (transform : α → Bool × Option β) : List α → List β × List α
  | [] => ([], [])
  | value :: rest =>
    let r := transform value
    let continued := filterMapGenTrace transform rest
    (match r with
     | (false, some mappedValue) => mappedValue :: continued.1
     | _ => continued.1,
     value :: continued.2)

/-- One `next()` call of the `lib/index.js` filterMap wrapper over a lazily
pulled underlying stream `g` (`g pos` is the value produced by the
`(pos+1)`-st underlying pull, `none` once exhausted).  Returns the iteration
result (`none` = done signal), the new underlying position, and the list of
values the transform was invoked on during this call.  The outer `none`
means the self-recursion on skip exceeded the fuel. -/
def filterMapNext (g : Nat → Option α) (transform : α → Bool × β) :
    Nat → Nat → Option (Option β × Nat × List α)
  | 0, _ => none
  | fuel + 1, pos =>
    match g pos with
    | none => some (none, pos + 1, [])
    | some value =>
      let r := transform value
      if r.1 then
        match filterMapNext g transform fuel (pos + 1) with
        | none => none
        | some (res, p, tr) => some (res, p, value :: tr)
      else
        some (some r.2, pos + 1, [value])

/-! ## Helper lemmas -/

theorem range_eq_aux : ∀ (t : Nat) (mn mx : Int), (mx + 1 - mn).toNat = t →
    range mn mx = (List.range t).map (fun k : Nat => mn + (k : Int)) := by
  intro t
  induction t with
  | zero =>
    intro mn mx h
    rw [range, if_neg (by omega)]
    simp
  | succ t ih =>
    intro mn mx h
    rw [range, if_pos (by omega : mn ≤ mx), ih (mn + 1) mx (by omega)]
    rw [List.range_succ_eq_map]
    simp only [List.map_cons, List.map_map, Nat.cast_zero, add_zero, List.cons.injEq,
      true_and]
    refine List.map_congr_left fun k _ => ?_
    simp only [Function.comp_apply, Nat.succ_eq_add_one]
    push_cast
    ring

theorem takeGo_pulls_le (f : Nat → IterRes α) : ∀ (n idx : Nat), (takeGo f idx n).2 ≤ n := by
  intro n
  induction n with
  | zero => intro idx; simp [takeGo]
  | succ n ih =>
    intro idx
    by_cases h : (f idx).done <;> simp [takeGo, h]
    exact ih (idx + 1)

theorem takeGo_values (f : Nat → IterRes α) : ∀ (n idx : Nat),
    (takeGo f idx n).1 = (List.range (takeGo f idx n).1.length).map (fun k => (f (idx + k)).value) := by
  intro n
  induction n with
  | zero => intro idx; simp [takeGo]
  | succ n ih =>
    intro idx
    by_cases h : (f idx).done
    · simp [takeGo, h]
    · simp only [takeGo, h, Bool.false_eq_true, if_false, List.length_cons,
        List.range_succ_eq_map, List.map_cons, List.map_map, Nat.cast_zero, add_zero,
        List.cons.injEq, true_and]
      conv_lhs => rw [ih (idx + 1)]
      refine List.map_congr_left fun k _ => ?_
      have e : idx + 1 + k = idx + Nat.succ k := by omega
      simp [Function.comp, e]

theorem takeGo_nodone (f : Nat → IterRes α) : ∀ (n idx k : Nat),
    k < (takeGo f idx n).1.length → (f (idx + k)).done = false := by
  intro n
  induction n with
  | zero => intro idx k hk; simp [takeGo] at hk
  | succ n ih =>
    intro idx k hk
    by_cases h : (f idx).done
    · simp [takeGo, h] at hk
    · simp only [takeGo, h, Bool.false_eq_true, if_false, List.length_cons] at hk
      cases k with
      | zero => simpa using h
      | succ k =>
        have := ih (idx + 1) k (by omega)
        have e : idx + (k + 1) = idx + 1 + k := by omega
        rw [e]
        exact this

theorem takeGo_stop (f : Nat → IterRes α) : ∀ (n idx : Nat),
    ((takeGo f idx n).2 = (takeGo f idx n).1.length ∧ (takeGo f idx n).1.length = n) ∨
    ((takeGo f idx n).2 = (takeGo f idx n).1.length + 1 ∧
      (f (idx + (takeGo f idx n).1.length)).done = true) := by
  intro n
  induction n with
  | zero => intro idx; left; simp [takeGo]
  | succ n ih =>
    intro idx
    by_cases h : (f idx).done
    · right
      simp [takeGo, h]
    · rcases ih (idx + 1) with ⟨h1, h2⟩ | ⟨h1, h2⟩
      · left
        simp only [takeGo, h, Bool.false_eq_true, if_false, List.length_cons]
        omega
      · right
        simp only [takeGo, h, Bool.false_eq_true, if_false, List.length_cons]
        refine ⟨by omega, ?_⟩
        have e : idx + ((takeGo f (idx + 1) n).1.length + 1) = idx + 1 + (takeGo f (idx + 1) n).1.length := by
          omega
        rw [e]
        exact h2

theorem takeGo_frame (f g : Nat → IterRes α) : ∀ (n idx : Nat),
    (∀ k, k < (takeGo f idx n).2 → g (idx + k) = f (idx + k)) →
    takeGo g idx n = takeGo f idx n := by
  intro n
  induction n with
  | zero => intro idx _; simp [takeGo]
  | succ n ih =>
    intro idx hagree
    have hp : 1 ≤ (takeGo f idx (n + 1)).2 := by
      by_cases h : (f idx).done <;> simp [takeGo, h]
    have h0 : g idx = f idx := by simpa using hagree 0 (by omega)
    by_cases h : (f idx).done
    · simp [takeGo, h, h0]
    · have hrest : takeGo g (idx + 1) n = takeGo f (idx + 1) n := by
        refine ih (idx + 1) fun k hk => ?_
        have hk2 : k + 1 < (takeGo f idx (n + 1)).2 := by
          simp only [takeGo, h, Bool.false_eq_true, if_false]
          omega
        have := hagree (k + 1) hk2
        have e : idx + (k + 1) = idx + 1 + k := by omega
        rw [e] at this
        exact this
      simp [takeGo, h, h0, hrest]

theorem takeTSGo_pulls_le (f : Nat → IterRes α) : ∀ (n idx : Nat), (takeTSGo f idx n).2 ≤ n := by
  intro n
  induction n with
  | zero => intro idx; simp [takeTSGo]
  | succ n ih =>
    intro idx
    by_cases h : (f idx).done <;> simp [takeTSGo, h]
    exact ih (idx + 1)

theorem filterMapNext_trace (g : Nat → Option α) (t : α → Bool × β) :
    ∀ (fuel pos : Nat) (res : Option β) (p : Nat) (tr : List α),
      filterMapNext g t fuel pos = some (res, p, tr) →
      pos < p ∧ tr = (List.range (p - pos)).filterMap (fun k => g (pos + k)) := by
  intro fuel
  induction fuel with
  | zero => intro pos res p tr h; simp [filterMapNext] at h
  | succ fuel ih =>
    intro pos res p tr h
    rw [filterMapNext] at h
    cases hg : g pos with
    | none =>
      rw [hg] at h
      simp only [Option.some.injEq, Prod.mk.injEq] at h
      obtain ⟨-, hp, htr⟩ := h
      subst hp htr
      refine ⟨by omega, ?_⟩
      have h0 : pos + 1 - pos = 1 := by omega
      have h1 : List.range 1 = [0] := rfl
      rw [h0, h1]
      simp [List.filterMap_cons, hg]
    | some v =>
      rw [hg] at h
      simp only at h
      by_cases hs : (t v).1
      · rw [if_pos hs] at h
        cases hrec : filterMapNext g t fuel (pos + 1) with
        | none => rw [hrec] at h; cases h
        | some triple =>
          obtain ⟨res1, p1, tr1⟩ := triple
          rw [hrec] at h
          simp only [Option.some.injEq, Prod.mk.injEq] at h
          obtain ⟨hres, hp, htr⟩ := h
          subst hres hp htr
          obtain ⟨hlt, htr1⟩ := ih (pos + 1) res1 p1 tr1 hrec
          refine ⟨by omega, ?_⟩
          have hd : p1 - pos = (p1 - (pos + 1)) + 1 := by omega
          rw [hd, List.range_succ_eq_map]
          simp only [List.filterMap_cons, add_zero, hg, List.filterMap_map]
          rw [htr1]
          refine congrArg _ (List.filterMap_congr fun k _ => ?_)
          have e : pos + Nat.succ k = pos + 1 + k := by omega
          simp [Function.comp, e]
      · rw [if_neg hs] at h
        simp only [Option.some.injEq, Prod.mk.injEq] at h
        obtain ⟨-, hp, htr⟩ := h
        subst hp htr
        refine ⟨by omega, ?_⟩
        have h0 : pos + 1 - pos = 1 := by omega
        have h1 : List.range 1 = [0] := rfl
        rw [h0, h1]
        simp [List.filterMap_cons, hg]

/-! ## Claim C9: range yields the consecutive integers, empty when min > max -/

/-- C9: `range(min, max)` with `min ≤ max` yields exactly `max - min + 1`
values, the consecutive integers from `min` ascending; with `min > max` it
yields zero values as a defined empty-result case (the embedding is total,
so no error is raised). -/
theorem range_spec : ∀ mn mx : Int,
    range mn mx = (List.range (mx + 1 - mn).toNat).map (fun k : Nat => mn + (k : Int)) ∧
    (mn ≤ mx → ((range mn mx).length : Int) = mx - mn + 1) ∧
    (mx < mn → range mn mx = []) := by
  intro mn mx
  refine ⟨range_eq_aux _ mn mx rfl, ?_, ?_⟩
  · intro h
    rw [range_eq_aux _ mn mx rfl]
    simp only [List.length_map, List.length_range]
    omega
  · intro h
    rw [range_eq_aux _ mn mx rfl]
    have h0 : (mx + 1 - mn).toNat = 0 := by omega
    simp [h0]

/-- Witness for C9 at min = 0, max = 3 and at min = 0, max = -1. -/
theorem range_spec_witness :
    ((0 : Int) ≤ 3 ∧ ((range 0 3).length : Int) = 3 - 0 + 1) ∧
    ((-1 : Int) < 0 ∧ range 0 (-1) = []) :=
  ⟨⟨by decide, (range_spec 0 3).2.1 (by decide)⟩,
   ⟨by decide, (range_spec 0 (-1)).2.2 (by decide)⟩⟩

/-! ## Claim C6: concat of one sequence is that sequence, concat of zero is empty -/

/-- C6: the `lib/index.js` `concat` returns the very sequence it was given
when the list has exactly one element (the `case 1` branch is
`return generators[0]`), and `concat([])` is the immediately exhausted
sequence, denoted by the empty value list. -/
theorem concat_spec : ∀ (α : Type), concat ([] : List (List α)) = [] ∧ ∀ s : List α, concat [s] = s :=
  fun _ => ⟨rfl, fun _ => rfl⟩

/-! ## Claim C5: the filterMap dual-signal contract -/

/-- C5 counterexample: in `lib/index.js`, a transform that returns the
absent marker (`undefined`) without calling `skip` does NOT have its value
discarded — the wrapper yields `undefined` as an ordinary value.  The
generator implementation discards it, as the claim demands. -/
theorem filterMap_undefined_counterexample :
    filterMap (fun _ => (false, JSValue.undefined)) [JSValue.num 1] = [JSValue.undefined] ∧
    filterMapGen (fun _ => (false, (none : Option Int))) [(1 : Int)] = [] :=
  ⟨rfl, rfl⟩

/-- C5 (amended): in the generator implementations (`src/src/index.ts`,
`src/unnamed/part_001`) a pulled value is discarded exactly when the
transform called `skip` or returned the absent marker, and otherwise the
returned value is yielded; in `lib/index.js` only the explicit `skip` call
discards — when `skip` was not called the returned value is yielded even if
it is `undefined`. -/
theorem filterMap_dual_signal :
    (∀ (α β : Type) (f : α → Bool × Option β) (xs : List α),
      filterMapGen f xs = xs.filterMap (fun v => if (f v).1 then none else (f v).2)) ∧
    (∀ (g : JSValue → Bool × JSValue) (ys : List JSValue),
      filterMap g ys = ys.filterMap (fun v => if (g v).1 then none else some (g v).2)) := by
  constructor
  · intro α β f xs
    induction xs with
    | nil => rfl
    | cons v rest ih =>
      rcases hv : f v with ⟨sk, mv⟩
      cases sk
      · cases mv <;> simp [filterMapGen, List.filterMap_cons, hv, ih]
      · simp [filterMapGen, List.filterMap_cons, hv, ih]
  · intro g ys
    induction ys with
    | nil => rfl
    | cons v rest ih =>
      rcases hv : g v with ⟨sk, mv⟩
      cases sk <;> simp [filterMap, List.filterMap_cons, hv, ih]

/-! ## Claim C10: the transform runs exactly once per consumed value -/

/-- C10: both implementations invoke the caller-supplied transform exactly
once per value pulled from the underlying sequence, in pull order.  For the
generator implementation the invocation trace over a full drain is the
input list itself; for the one-call-at-a-time `lib/index.js` wrapper, every
successful `next()` call starting at underlying position `pos` and ending
at `p` invokes the transform exactly once on each value the underlying
sequence produced at positions `pos … p-1`, in order. -/
theorem filterMap_transform_once :
    (∀ (α β : Type) (f : α → Bool × Option β) (xs : List α),
      (filterMapGenTrace f xs).2 = xs ∧ (filterMapGenTrace f xs).1 = filterMapGen f xs) ∧
    (∀ (α β : Type) (g : Nat → Option α) (t : α → Bool × β) (fuel pos : Nat)
      (res : Option β) (p : Nat) (tr : List α),
      filterMapNext g t fuel pos = some (res, p, tr) →
      pos < p ∧ tr = (List.range (p - pos)).filterMap (fun k => g (pos + k))) := by
  constructor
  · intro α β f xs
    induction xs with
    | nil => exact ⟨rfl, rfl⟩
    | cons v rest ih =>
      rcases hv : f v with ⟨sk, mv⟩
      constructor
      · simp [filterMapGenTrace, ih.1]
      · cases sk
        · cases mv <;> simp [filterMapGenTrace, filterMapGen, hv, ih.2]
        · simp [filterMapGenTrace, filterMapGen, hv, ih.2]
  · intro α β g t fuel pos res p tr h
    exact filterMapNext_trace g t fuel pos res p tr h

/-- Witness for C10: a `lib/index.js` filterMap `next()` call that skips 10
and yields on 11 consumed exactly the underlying values 10 and 11, each
once, in order. -/
theorem filterMap_transform_once_witness :
    filterMapNext (fun n : Nat => [10, 11, 12].get? n) (fun v : Nat => (v == 10, v * 2)) 5 0 =
      some (some 22, 2, [10, 11]) ∧
    0 < 2 ∧ [10, 11] = (List.range (2 - 0)).filterMap (fun k => [10, 11, 12].get? (0 + k)) :=
  ⟨by decide, filterMap_transform_once.2 Nat Nat (fun n : Nat => [10, 11, 12].get? n)
    (fun v : Nat => (v == 10, v * 2)) 5 0 (some 22) 2 [10, 11] (by decide)⟩

/-! ## Claim C7: take and the value carried by a done signal -/

/-- C7 counterexample: the `src/src/index.ts` take pushes the value carried
by a done iteration when it is defined.  On a sequence whose every
iteration result is `{done: true, value: 42}`, `take(seq, 1)` returns
`[42]`, although no iteration had a false done flag. -/
theorem takeTS_done_value_counterexample :
    (takeTS (fun _ => IterRes.mk true (some (42 : Int))) 1).1 = [some 42] ∧
    ∀ i : Nat, ((fun _ => IterRes.mk true (some (42 : Int))) i).done = true :=
  ⟨rfl, fun _ => rfl⟩

/-- C7 (amended): the `lib/index.js` take never inspects or pushes a value
accompanying a done signal — every element of its result comes from an
iteration whose done flag was false; the `src/src/index.ts` take instead
pushes the final done value when it is defined (see the counterexample). -/
theorem take_no_done_value :
    ∀ (α : Type) (f : Nat → IterRes α) (c : Int) (v : Option α),
      v ∈ (take f c).1 →
      ∃ i, i < (take f c).2 ∧ (f i).done = false ∧ v = (f i).value := by
  intro α f c v hv
  rw [take] at hv ⊢
  rw [takeGo_values f c.toNat 0] at hv
  obtain ⟨k, hk, hkv⟩ := List.mem_map.mp hv
  have hkl : k < (takeGo f 0 c.toNat).1.length := List.mem_range.mp hk
  refine ⟨k, ?_, ?_, ?_⟩
  · rcases takeGo_stop f c.toNat 0 with ⟨h1, -⟩ | ⟨h1, -⟩ <;> omega
  · have := takeGo_nodone f c.toNat 0 k hkl
    simpa using this
  · simpa using hkv.symm

/-- Witness for C7 on a sequence of naturals taken twice. -/
theorem take_no_done_value_witness :
    (some (0 : Int)) ∈ (take (fun k => IterRes.mk false (some (k : Int))) 2).1 ∧
    ∃ i, i < (take (fun k => IterRes.mk false (some (k : Int))) 2).2 ∧
      ((fun k => IterRes.mk false (some (k : Int))) i).done = false ∧
      (some (0 : Int)) = ((fun k => IterRes.mk false (some (k : Int))) i).value :=
  ⟨by decide, take_no_done_value Int (fun k => IterRes.mk false (some (k : Int))) 2
    (some 0) (by decide)⟩

/-! ## Claim C8: take pulls at most max(count, 0) times -/

/-- C8: for every sequence and every integer count `c`, both embedded take
implementations call `next` at most `max c 0` times; when `c ≤ 0` they
return the empty list without pulling at all; the `lib/index.js` take
returns exactly the values produced before the first done signal, in order,
truncated to the requested count, and its output depends only on the stream
entries it actually pulled. -/
theorem take_pull_bound :
    ∀ (α : Type) (f : Nat → IterRes α) (c : Int),
      (((take f c).2 : Int) ≤ max c 0 ∧ ((takeTS f c).2 : Int) ≤ max c 0) ∧
      (c ≤ 0 → take f c = ([], 0) ∧ takeTS f c = ([], 0)) ∧
      (take f c).1 = (List.range ((take f c).1.length)).map (fun k => (f k).value) ∧
      (∀ k, k < (take f c).1.length → (f k).done = false) ∧
      (((take f c).2 = (take f c).1.length ∧ ((take f c).1.length : Int) = max c 0) ∨
        ((take f c).2 = (take f c).1.length + 1 ∧ (f ((take f c).1.length)).done = true)) ∧
      (∀ g : Nat → IterRes α, (∀ k, k < (take f c).2 → g k = f k) → take g c = take f c) := by
  intro α f c
  refine ⟨⟨?_, ?_⟩, ?_, ?_, ?_, ?_, ?_⟩
  · have := takeGo_pulls_le f c.toNat 0
    rw [take]
    omega
  · have := takeTSGo_pulls_le f c.toNat 0
    rw [takeTS]
    omega
  · intro h
    have h0 : c.toNat = 0 := by omega
    rw [take, takeTS, h0]
    exact ⟨rfl, rfl⟩
  · have := takeGo_values f c.toNat 0
    simpa [take] using this
  · intro k hk
    have := takeGo_nodone f c.toNat 0 k (by simpa [take] using hk)
    simpa using this
  · rcases takeGo_stop f c.toNat 0 with ⟨h1, h2⟩ | ⟨h1, h2⟩
    · left
      refine ⟨by simpa [take] using h1, ?_⟩
      rw [take, h2]
      omega
    · right
      refine ⟨by simpa [take] using h1, ?_⟩
      simpa [take] using h2
  · intro g hg
    rw [take, take]
    refine takeGo_frame f g c.toNat 0 fun k hk => ?_
    have := hg k (by simpa [take] using hk)
    simpa using this

/-- Witness for C8 at a negative count and at a bounded take of an infinite
sequence. -/
theorem take_pull_bound_witness :
    ((-2 : Int) ≤ 0 ∧ take (fun k => IterRes.mk false (some (k : Int))) (-2) = ([], 0) ∧
      takeTS (fun k => IterRes.mk false (some (k : Int))) (-2) = ([], 0)) ∧
    (((take (fun k => IterRes.mk false (some (k : Int))) 3).2 : Int) ≤ max 3 0) :=
  ⟨⟨by decide,
    ((take_pull_bound Int (fun k => IterRes.mk false (some (k : Int))) (-2)).2.1 (by decide)).1,
    ((take_pull_bound Int (fun k => IterRes.mk false (some (k : Int))) (-2)).2.1 (by decide)).2⟩,
   (take_pull_bound Int (fun k => IterRes.mk false (some (k : Int))) 3).1.1⟩

/-! ## The two combine implementations on lazily pulled sequences

For laziness claims, an iterable is a stream `Nat → Option α`: the value
produced by the `(i+1)`-st pull, `none` once the source is exhausted (a
well-behaved source keeps returning `none`).

### combine — lib/index.js, two-generator case

```js
case 2:
  var left = generators[0];
  var allRight = toArray(generators[1]);   // eager drain of the right side
  var leftIteration;
  var rightOffset = 0;
  return { next: function next() {
    if (!leftIteration) { leftIteration = left.next(); }
    if (leftIteration.done) { return leftIteration; }
    var nextRight = allRight[rightOffset++];
    if (nextRight) {
      return { value: [leftIteration.value, nextRight], done: false };
    } else {
      leftIteration = null;
      rightOffset = 0;
      return next();
    }
  } };
```

The construction runs `toArray` on the right generator before the first
pull; `toArrayFuel` embeds that loop with fuel, returning `none` when the
loop has not finished within the fuel — on an infinite source it returns
`none` for every fuel.  The `next` closure is embedded as a state machine;
note the JavaScript truthiness test `if (nextRight)`, which also fires on
falsy array elements such as `0`, not only past the end of the buffer. -/

def toArrayFuel (s : Nat → Option α) : Nat → Nat → Option (List α)
  | 0, _ => none
  | fuel + 1, idx =>
    match s idx with
    | none => some []
    | some v =>
      match toArrayFuel s fuel (idx + 1) with
      | none => none
      | some rest => some (v :: rest)

/-- Closure state of the two-generator `combine` from `lib/index.js`:
`leftIteration` is `none` for the JavaScript `null`/`undefined`, and
`some it` for a stored iteration result (`it = none` meaning a done
result); `leftPos` counts the pulls made on the left generator. -/
structure Lib2St where
  leftIteration : Option (Option JSValue)
  rightOffset : Nat
  leftPos : Nat

def lib2Init : Lib2St := ⟨none, 0, 0⟩

/-- One `next()` call of the two-generator `lib/index.js` combine.  The
result is `none` when the self-recursion (taken on a falsy or absent right
element) exceeds the fuel; otherwise `some (it, st)` with `it = none` for a
done signal and `it = some v` for `{value: v, done: false}`. -/
def lib2Next (left : Nat → Option JSValue) (allRight : List JSValue) :
    Nat → Lib2St → Option (Option JSValue × Lib2St)
  | 0, _ => none
  | fuel + 1, st =>
    let pulled : Option JSValue × Lib2St :=
      match st.leftIteration with
      | some it => (it, st)
      | none =>
        match left st.leftPos with
        | some v => (some v, { st with leftIteration := some (some v), leftPos := st.leftPos + 1 })
        | none => (none, { st with leftIteration := some none, leftPos := st.leftPos + 1 })
    match pulled.1 with
    | none => some (none, pulled.2)
    | some leftValue =>
      let st1 := pulled.2
      let nextRight := allRight.get? st1.rightOffset
      let st2 := { st1 with rightOffset := st1.rightOffset + 1 }
      match nextRight with
      | some r =>
        if truthy r then some (some (JSValue.arr [leftValue, r]), st2)
        else lib2Next left allRight fuel { st2 with leftIteration := none, rightOffset := 0 }
      | none => lib2Next left allRight fuel { st2 with leftIteration := none, rightOffset := 0 }

def lib2TakeGo (left : Nat → Option JSValue) (allRight : List JSValue) (fuel : Nat) :
    Nat → Lib2St → Option (List JSValue)
  | 0, _ => some []
  | k + 1, st =>
    match lib2Next left allRight fuel st with
    | none => none
    | some (none, _) => some []
    | some (some v, st1) =>
      match lib2TakeGo left allRight fuel k st1 with
      | none => none
      | some rest => some (v :: rest)

/-- Driving the two-generator `lib/index.js` combine with `take(_, count)`:
first the construction eagerly drains the right generator (`toArray`), then
the `next` closure is pulled up to `count` times.  `none` means some step
did not finish within the fuel — in particular construction on an infinite
right generator never finishes. -/
def lib2Take (left right : Nat → Option JSValue) (count fuel : Nat) : Option (List JSValue) :=
  match toArrayFuel right fuel 0 with
  | none => none
  | some allRight => lib2TakeGo left allRight fuel count lib2Init

/-! ### combine — src/unnamed/part_001, two iterables

```ts
default: {
  const tails = copy(combine(iterables.slice(1)));
  for (const head of iterables[0]) {
    for (const tail of tails) {
      yield [head, ...tail];
    }
  }
}
```

For two iterables, `tails = copy(combine([s2]))` yields the singleton
tuples `[s2(0)], [s2(1)], …` — `copy` replays the buffered values to every
fresh `for…of` cursor, pulling the underlying iterable lazily one value at
a time (the replay behaviour is proved on the copy machine below).  The
nested loop is embedded as a state machine: `i` is the number of values
pulled from the head iterable, `cur` the currently bound head value
(`none` when the inner loop ended and a new head must be pulled), `j` the
position of the inner cursor in the replayed tails. -/

structure CombineGenSt (α : Type) where
  i : Nat
  cur : Option α
  j : Nat
deriving DecidableEq, Repr

def combineGenInit : CombineGenSt α := ⟨0, none, 0⟩

/-- One `next()` call of the part_001 generator combine on two iterables.
`some (none, st)` is the done signal (outer loop finished — and a finished
generator keeps signalling done); `none` means the internal loop advanced
more often than the fuel allows. -/
def combineGenNext (s1 s2 : Nat → Option α) :
    Nat → CombineGenSt α → Option (Option (List α) × CombineGenSt α)
  | 0, _ => none
  | fuel + 1, st =>
    match st.cur with
    | none =>
      match s1 st.i with
      | none => some (none, st)
      | some head => combineGenNext s1 s2 fuel ⟨st.i + 1, some head, 0⟩
    | some head =>
      match s2 st.j with
      | some tail => some (some [head, tail], ⟨st.i, some head, st.j + 1⟩)
      | none => combineGenNext s1 s2 fuel ⟨st.i, none, st.j⟩

def combineGenTake (s1 s2 : Nat → Option α) (fuel : Nat) :
    Nat → CombineGenSt α → Option (List (List α))
  | 0, _ => some []
  | k + 1, st =>
    match combineGenNext s1 s2 fuel st with
    | none => none
    | some (none, _) => some []
    | some (some t, st1) =>
      match combineGenTake s1 s2 fuel k st1 with
      | none => none
      | some rest => some (t :: rest)

/-- A finite iterable given by a list of JavaScript values. -/
def listStream (xs : List JSValue) : Nat → Option JSValue := fun n => xs.get? n

/-! ## Claim C1: combine enumerates the full cross product -/

theorem combineTS_foldr : ∀ (α : Type) (g : List α) (gs : List (List α)),
    combineTS (g :: gs) =
      (g :: gs).foldr (fun seq acc => seq.flatMap (fun v => acc.map (fun t => v :: t))) [[]] := by
  intro α g gs
  induction gs generalizing g with
  | nil =>
    simp only [combineTS, List.foldr_cons, List.foldr_nil]
    induction g with
    | nil => rfl
    | cons v rest ih => simp [ih]
  | cons g2 rest ih =>
    simp only [combineTS, List.foldr_cons]
    rw [ih g2]
    rfl

/-- C1: the claim holds of the generator implementation — `combineTS` on a
nonempty list of sequences is exactly the full cross product in odometer
order (the right fold that varies the last index fastest), including falsy
values, with the documented 0- and 1-sequence cases — but the
`lib/index.js` `combine` is buggy: its two-generator case tests the
buffered right-hand element for truthiness, so the falsy value `0` in the
right-hand sequence is taken as the end of the buffer.  At
`combine([fromArray([1]), fromArray([0, 1])])` it yields no tuples at all,
where the claim requires `[[1,0],[1,1]]`. -/
theorem combine_cross_product :
    (∀ (α : Type) (g : List α) (gs : List (List α)),
      combineTS (g :: gs) =
        (g :: gs).foldr (fun seq acc => seq.flatMap (fun v => acc.map (fun t => v :: t))) [[]]) ∧
    lib2Take (listStream [JSValue.num 1]) (listStream [JSValue.num 0, JSValue.num 1]) 5 10 =
      some [] ∧
    combineTS [[(1 : Int)], [0, 1]] = [[1, 0], [1, 1]] ∧
    combineTS ([] : List (List Int)) = [] ∧
    combineTS [[(0 : Int), 1, 2, 3]] = [[0], [1], [2], [3]] ∧
    combineTS [[(0 : Int), 1], [3, 4]] = [[0, 3], [0, 4], [1, 3], [1, 4]] ∧
    combineTS [[(0 : Int), 1], [3, 4], [6, 7]] =
      [[0, 3, 6], [0, 3, 7], [0, 4, 6], [0, 4, 7], [1, 3, 6], [1, 3, 7], [1, 4, 6], [1, 4, 7]] :=
  ⟨combineTS_foldr, rfl, rfl, rfl, rfl, rfl, rfl⟩

/-! ## Claim C2: combine of two infinite sequences under a bounded take -/

theorem toArrayFuel_infinite (s : Nat → Option α) (h : ∀ i, (s i).isSome) :
    ∀ (fuel idx : Nat), toArrayFuel s fuel idx = none := by
  intro fuel
  induction fuel with
  | zero => intro idx; rfl
  | succ fuel ih =>
    intro idx
    have hi := h idx
    cases hs : s idx with
    | none => rw [hs] at hi; simp at hi
    | some v => simp [toArrayFuel, hs, ih (idx + 1)]

/-- C2 counterexample: the `lib/index.js` combine (cited by the claim)
eagerly drains the right generator with `toArray` at construction, so on
two infinite sequences the bounded `take` never returns — no amount of fuel
makes the embedded computation finish.  This refutes the claim that a
bounded take on combine of two infinite sequences always returns. -/
theorem combine_lib_infinite_counterexample :
    ¬ ∃ fuel, (lib2Take (fun n => some (JSValue.num (n : Int)))
      (fun n => some (JSValue.num (n : Int))) 3 fuel).isSome := by
  rintro ⟨fuel, h⟩
  have hz : toArrayFuel (fun n => some (JSValue.num (n : Int))) fuel 0 = none :=
    toArrayFuel_infinite (fun n => some (JSValue.num (n : Int))) (fun _ => rfl) fuel 0
  rw [lib2Take, hz] at h
  simp at h

theorem combineGenTake_inf_aux (s1 s2 : Nat → α) : ∀ (k j : Nat),
    combineGenTake (fun n => some (s1 n)) (fun n => some (s2 n)) 2 k ⟨1, some (s1 0), j⟩ =
      some ((List.range k).map (fun m => [s1 0, s2 (j + m)])) := by
  intro k
  induction k with
  | zero => intro j; rfl
  | succ k ih =>
    intro j
    rw [combineGenTake]
    simp only [combineGenNext, ih (j + 1)]
    rw [List.range_succ_eq_map]
    simp only [List.map_cons, List.map_map, add_zero, Option.some.injEq, List.cons.injEq,
      true_and]
    refine List.map_congr_left fun m _ => ?_
    have e : j + Nat.succ m = j + 1 + m := by omega
    simp [Function.comp, e]

/-- C2 (amended): for the `copy`-based generator combine of
`src/unnamed/part_001` the claim holds — on two infinite sequences the
head stays fixed at the first left value while the lazily buffered right
sequence advances, so taking the first k tuples terminates and yields
`[s1 0, s2 m]` for `m < k`; in particular the first three tuples of
`combine([naturals, naturals])` are `[0,0], [0,1], [0,2]`.  The
`lib/index.js` combine instead diverges there (see the counterexample). -/
theorem combine_gen_lazy :
    (∀ (α : Type) (s1 s2 : Nat → α) (k : Nat),
      combineGenTake (fun n => some (s1 n)) (fun n => some (s2 n)) 2 k combineGenInit =
        some ((List.range k).map (fun m => [s1 0, s2 m]))) ∧
    combineGenTake (fun n => some (n : Int)) (fun n => some (n : Int)) 2 3 combineGenInit =
      some [[0, 0], [0, 1], [0, 2]] := by
  constructor
  · intro α s1 s2 k
    cases k with
    | zero => rfl
    | succ k =>
      rw [combineGenTake]
      simp only [combineGenNext, combineGenInit, combineGenTake_inf_aux s1 s2 k 1]
      rw [List.range_succ_eq_map]
      simp only [List.map_cons, List.map_map, Option.some.injEq, List.cons.injEq, true_and]
      refine List.map_congr_left fun m _ => ?_
      have e : 1 + m = Nat.succ m := by omega
      simp [Function.comp, e]
  · rfl

/-! ## copy — src/unnamed/part_001

```ts
export function copy<T>(iterable: Iterable<T>): Iterable<T> {
  const values: Array<T> = [];
  const indexes: Array<number> = [];
  const iterators: Array<Iterator<T>> = [];
  let done = false;
  let maxIndex = Infinity;

  function getIteratorResultAtIndex(index: number): IteratorResult<T> {
    while (values.length <= index) {
      if (!done) {
        const valueArray = take(iterable, 1);
        if (valueArray.length === 0) {
          done = true;
          maxIndex = values.length - 1;
        }
        values.push(valueArray[0]);
      }
    }
    return { done: index > maxIndex, value: values[index] };
  }

  return { [Symbol.iterator]() {
    const id = iterators.length;
    indexes[id] = 0;
    iterators[id] = { next() { return getIteratorResultAtIndex(indexes[id]++); } };
    return iterators[id];
  } };
}
```

The shared closure state is embedded as `CopySt`; the underlying iterable
is a well-behaved finite generator with value list `xs` (each
`take(iterable, 1)` advances it by exactly one `next()` call, so its
position equals the number of pulls made so far).  The JavaScript number
`maxIndex` starts at `Infinity` (modelled `none`) and is set to
`values.length - 1`, which can be `-1`, so it is an `Option Int`.
`pulls` instruments the number of underlying `next()` calls.  The `while`
loop is embedded with fuel; crucially, when `done` is set and
`values.length <= index` still holds, the loop body does nothing and the
JavaScript code loops forever — the embedding returns `none` for every
fuel in that situation. -/

structure CopySt (α : Type) where
  values : List (Option α)
  done : Bool
  maxIndex : Option Int
  pulls : Nat
  cursors : List Nat
deriving DecidableEq, Repr

def copyInit : CopySt α := ⟨[], false, none, 0, []⟩

/-- One iteration of the while-loop body when `done` is false:
`take(iterable, 1)` pulls the underlying generator once; an empty result
sets `done` and `maxIndex`, and `values.push(valueArray[0])` appends the
value (or `undefined` when the pull hit exhaustion). -/
def copyPullStep (xs : List α) (s : CopySt α) : CopySt α :=
  match xs.get? s.pulls with
  | some v => { s with values := s.values ++ [some v], pulls := s.pulls + 1 }
  | none =>
    { s with done := true, maxIndex := some ((s.values.length : Int) - 1),
             values := s.values ++ [none], pulls := s.pulls + 1 }

/-- The value returned once the while loop has exited:
`{ done: index > maxIndex, value: values[index] }` (comparison with the
initial `Infinity` is false). -/
def copyResult (index : Nat) (s : CopySt α) : IterRes α :=
  { done := match s.maxIndex with
            | none => false
            | some m => decide ((index : Int) > m),
    value := s.values.getD index none }

/-- The while loop of `getIteratorResultAtIndex`, with fuel bounding the
number of body iterations.  When the body cannot make progress
(`done` is set but `values.length <= index`) the JavaScript loop runs
forever, so the embedding answers `none` at every fuel. -/
def getIteratorResultAtIndex (xs : List α) (index : Nat) :
    Nat → CopySt α → Option (IterRes α × CopySt α)
  | 0, s =>
    if s.values.length ≤ index then none
    else some (copyResult index s, s)
  | fuel + 1, s =>
    if s.values.length ≤ index then
      if s.done then none
      else getIteratorResultAtIndex xs index fuel (copyPullStep xs s)
    else some (copyResult index s, s)

/-- `iterators[id].next()`: read the cursor position, run
`getIteratorResultAtIndex`, and post-increment the position. -/
def cursorNext (xs : List α) (fuel : Nat) (c : Nat) (s : CopySt α) :
    Option (IterRes α × CopySt α) :=
  match s.cursors.get? c with
  | none => none
  | some index =>
    match getIteratorResultAtIndex xs index fuel s with
    | none => none
    | some (r, s1) => some (r, { s1 with cursors := s1.cursors.set c (index + 1) })

/-- `[Symbol.iterator]()`: registers a fresh cursor starting at position 0. -/
def newCursor (s : CopySt α) : CopySt α := { s with cursors := s.cursors ++ [0] }

/-- An interleaving of independent iterations over one copy: each event
either begins a new iteration or advances an existing cursor. -/
inductive CopyEv where
  | iter
  | read (c : Nat)
deriving DecidableEq, Repr

/-- Run a schedule of events against the shared copy state, collecting the
iteration results of the reads in order.  `none` when a read diverges. -/
def runSched (xs : List α) (fuel : Nat) :
    List CopyEv → CopySt α → Option (CopySt α × List (IterRes α))
  | [], s => some (s, [])
  | .iter :: evs, s => runSched xs fuel evs (newCursor s)
  | .read c :: evs, s =>
    match cursorNext xs fuel c s with
    | none => none
    | some (r, s1) =>
      match runSched xs fuel evs s1 with
      | none => none
      | some (sFin, rs) => some (sFin, r :: rs)

/-! ### Specification side for copy

What each read should observe: position `p` of the underlying value list
holds `xs[p]` for `p < n` and the done signal at `p = n`. -/

def expectedRead (xs : List α) (p : Nat) : IterRes α :=
  if h : p < xs.length then ⟨false, some (xs.get ⟨p, h⟩)⟩ else ⟨true, none⟩

/-- The trace the claim predicts for a schedule: every cursor sees the
underlying values in order, then the done signal, independent of the
interleaving.  `ps` carries the positions of the cursors created so far. -/
def specTrace (xs : List α) : List CopyEv → List Nat → List (IterRes α)
  | [], _ => []
  | .iter :: evs, ps => specTrace xs evs (ps ++ [0])
  | .read c :: evs, ps =>
    match ps.get? c with
    | none => []
    | some p => expectedRead xs p :: specTrace xs evs (ps.set c (p + 1))

/-- Final cursor positions after a schedule. -/
def specPositions : List CopyEv → List Nat → List Nat
  | [], ps => ps
  | .iter :: evs, ps => specPositions evs (ps ++ [0])
  | .read c :: evs, ps =>
    match ps.get? c with
    | none => ps
    | some p => specPositions evs (ps.set c (p + 1))

/-- A schedule is valid when every read targets an existing cursor that has
not yet consumed the done signal (a `for…of` loop stops reading after the
done result, so its reads are at positions `0 … xs.length`). -/
def validSched (n : Nat) : List CopyEv → List Nat → Bool
  | [], _ => true
  | .iter :: evs, ps => validSched n evs (ps ++ [0])
  | .read c :: evs, ps =>
    match ps.get? c with
    | none => false
    | some p => decide (p ≤ n) && validSched n evs (ps.set c (p + 1))

/-- The furthest position any cursor has reached. -/
def maxPos (ps : List Nat) : Nat := ps.foldr max 0

/-- Reachable states of the copy machine over a finite well-behaved
underlying generator with value list `xs`: the buffer is a prefix of the
underlying values followed by the `undefined` pushed when exhaustion is
detected, the underlying generator has been pulled once per buffered entry,
`done` and `maxIndex` record whether exhaustion was detected, and the
buffer extends exactly as far as the furthest cursor went. -/
def CopyInv (xs : List α) (s : CopySt α) : Prop :=
  s.pulls = s.values.length ∧
  s.values = (xs.map some ++ [none]).take s.values.length ∧
  s.values.length = maxPos s.cursors ∧
  maxPos s.cursors ≤ xs.length + 1 ∧
  s.done = decide (s.values.length = xs.length + 1) ∧
  s.maxIndex = (if s.values.length = xs.length + 1 then some ((xs.length : Int) - 1) else none)

theorem mem_le_maxPos : ∀ (ps : List Nat) (a : Nat), a ∈ ps → a ≤ maxPos ps := by
  intro ps
  induction ps with
  | nil => intro a ha; cases ha
  | cons b t ih =>
    intro a ha
    rcases List.mem_cons.mp ha with h | h
    · subst h; exact le_max_left _ _
    · exact le_trans (ih a h) (le_max_right _ _)

theorem maxPos_append_zero (ps : List Nat) : maxPos (ps ++ [0]) = maxPos ps := by
  induction ps with
  | nil => rfl
  | cons b t ih => simp only [maxPos, List.foldr_cons, List.cons_append] at ih ⊢; rw [ih]

theorem maxPos_set : ∀ (ps : List Nat) (c p v : Nat), ps.get? c = some p → p ≤ v →
    maxPos (ps.set c v) = max (maxPos ps) v := by
  intro ps
  induction ps with
  | nil => intro c p v hc _; simp at hc
  | cons b t ih =>
    intro c p v hc hpv
    cases c with
    | zero =>
      simp only [List.get?_cons_zero, Option.some.injEq] at hc
      simp only [List.set_cons_zero, maxPos, List.foldr_cons]
      omega
    | succ c =>
      simp only [List.get?_cons_succ] at hc
      simp only [List.set_cons_succ, maxPos, List.foldr_cons]
      have := ih c p v hc hpv
      simp only [maxPos] at this
      omega

theorem get?_cursor_le_maxPos (ps : List Nat) (c p : Nat) (h : ps.get? c = some p) :
    p ≤ maxPos ps :=
  mem_le_maxPos ps p (List.get?_mem h)

theorem copyPullStep_length (xs : List α) (s : CopySt α) :
    (copyPullStep xs s).values.length = s.values.length + 1 := by
  rw [copyPullStep]
  split <;> simp

theorem getIteratorResultAtIndex_exit (xs : List α) (index : Nat) (s : CopySt α)
    (h : index < s.values.length) :
    ∀ fuel, getIteratorResultAtIndex xs index fuel s = some (copyResult index s, s) := by
  intro fuel
  cases fuel <;> simp [getIteratorResultAtIndex, Nat.not_le.mpr h]

theorem getIteratorResultAtIndex_stuck (xs : List α) (index : Nat) (s : CopySt α)
    (hdone : s.done = true) (h : s.values.length ≤ index) :
    ∀ fuel, getIteratorResultAtIndex xs index fuel s = none := by
  intro fuel
  cases fuel <;> simp [getIteratorResultAtIndex, h, hdone]

theorem getIteratorResultAtIndex_step (xs : List α) (index : Nat) (s : CopySt α)
    (hle : s.values.length = index) (hdone : s.done = false) (fuel : Nat) :
    getIteratorResultAtIndex xs index (fuel + 1) s =
      some (copyResult index (copyPullStep xs s), copyPullStep xs s) := by
  rw [getIteratorResultAtIndex, if_pos (le_of_eq hle), hdone]
  simp only [Bool.false_eq_true, if_false]
  exact getIteratorResultAtIndex_exit xs index _ (by rw [copyPullStep_length]; omega) fuel


theorem buffer_get_lt (xs : List α) (p : Nat) (h : p < xs.length) :
    (xs.map some ++ [none]).get? p = some (some (xs.get ⟨p, h⟩)) := by
  rw [List.get?_append (by simpa using h), List.get?_map, List.get?_eq_get h]
  rfl

theorem buffer_get_eq (xs : List α) :
    (xs.map some ++ [(none : Option α)]).get? xs.length = some none := by
  have := List.get?_concat_length (xs.map some) (none : Option α)
  simpa using this

theorem cursorNext_spec (xs : List α) (fuel : Nat) (c p : Nat) (s : CopySt α)
    (hinv : CopyInv xs s) (hc : s.cursors.get? c = some p) (hp : p ≤ xs.length) :
    ∃ s1, cursorNext xs (fuel + 1) c s = some (expectedRead xs p, s1) ∧
      CopyInv xs s1 ∧ s1.cursors = s.cursors.set c (p + 1) := by
  obtain ⟨hpl, hval, hlen, hmax, hdone, hmaxIdx⟩ := hinv
  have hpm : p ≤ s.values.length := by
    rw [hlen]
    exact get?_cursor_le_maxPos _ _ _ hc
  rcases lt_or_eq_of_le hpm with hplt | hpeq
  · -- cache hit: the while loop does not run and the state is unchanged
    have hres : copyResult p s = expectedRead xs p := by
      rw [copyResult, expectedRead]
      by_cases hpn : p < xs.length
      · rw [dif_pos hpn]
        have hv : s.values.getD p none = some (xs.get ⟨p, hpn⟩) := by
          rw [List.getD_eq_get?, hval, List.get?_take hplt, buffer_get_lt xs p hpn]
          rfl
        have hdflag : (match s.maxIndex with
            | none => false
            | some m => decide ((p : Int) > m)) = false := by
          by_cases hm : s.values.length = xs.length + 1
          · rw [hmaxIdx, if_pos hm]
            simp only [decide_eq_false_iff_not, not_lt]
            omega
          · rw [hmaxIdx, if_neg hm]
        rw [hdflag, hv]
      · rw [dif_neg hpn]
        have hpn2 : p = xs.length := by omega
        have hm : s.values.length = xs.length + 1 := by omega
        have hv : s.values.getD p none = none := by
          rw [List.getD_eq_get?, hval, List.get?_take hplt, hpn2, buffer_get_eq xs]
          rfl
        have hdflag : (match s.maxIndex with
            | none => false
            | some m => decide ((p : Int) > m)) = true := by
          rw [hmaxIdx, if_pos hm]
          simp only [decide_eq_true_eq]
          omega
        rw [hdflag, hv]
    refine ⟨{ s with cursors := s.cursors.set c (p + 1) }, ?_, ?_, rfl⟩
    · simp only [cursorNext, hc, getIteratorResultAtIndex_exit xs p s hplt (fuel + 1), hres]
    · refine ⟨hpl, hval, ?_, ?_, hdone, hmaxIdx⟩
      · dsimp only
        rw [maxPos_set s.cursors c p (p + 1) hc (by omega)]
        omega
      · dsimp only
        rw [maxPos_set s.cursors c p (p + 1) hc (by omega)]
        omega
  · -- p = values.length: the while loop body runs exactly once
    have hdf : s.done = false := by
      rw [hdone]
      simp only [decide_eq_false_iff_not]
      omega
    by_cases hpn : p < xs.length
    · -- a value is still available: pull and buffer it
      obtain ⟨v, hv⟩ : ∃ v, xs.get? p = some v := ⟨_, List.get?_eq_get hpn⟩
      have hvv : xs.get ⟨p, hpn⟩ = v := by
        have h5 := List.get?_eq_get hpn
        rw [hv] at h5
        exact (Option.some.inj h5).symm
      have hvp : xs.get? s.pulls = some v := by
        rw [hpl, ← hpeq]
        exact hv
      have hstep : copyPullStep xs s =
          { s with values := s.values ++ [some v], pulls := s.pulls + 1 } := by
        rw [copyPullStep, hvp]
      have hres : copyResult p (copyPullStep xs s) = expectedRead xs p := by
        rw [hstep, copyResult, expectedRead, dif_pos hpn, hvv]
        have hv2 : (s.values ++ [some v]).getD p none = some v := by
          rw [List.getD_eq_get?, hpeq, List.get?_concat_length]
          rfl
        have hdflag : (match s.maxIndex with
            | none => false
            | some m => decide ((p : Int) > m)) = false := by
          rw [hmaxIdx, if_neg (by omega)]
        simp only [hv2, hdflag]
      refine ⟨{ s with
          values := s.values ++ [some v],
          pulls := s.pulls + 1,
          cursors := s.cursors.set c (p + 1) }, ?_, ?_, rfl⟩
      · simp only [cursorNext, hc, getIteratorResultAtIndex_step xs p s hpeq.symm hdf fuel,
          hres]
        rw [hstep]
      · refine ⟨?_, ?_, ?_, ?_, ?_, ?_⟩
        · dsimp only
          simp [hpl]
        · dsimp only
          simp only [List.length_append, List.length_cons, List.length_nil, Nat.zero_add]
          rw [List.take_succ]
          have hbg : (xs.map some ++ [none])[s.values.length]? = some (some v) := by
            rw [← List.get?_eq_getElem?, ← hpeq, buffer_get_lt xs p hpn, hvv]
          rw [hbg, ← hval]
          rfl
        · dsimp only
          simp only [List.length_append, List.length_cons, List.length_nil, Nat.zero_add]
          rw [maxPos_set s.cursors c p (p + 1) hc (by omega)]
          omega
        · dsimp only
          rw [maxPos_set s.cursors c p (p + 1) hc (by omega)]
          omega
        · dsimp only
          simp only [List.length_append, List.length_cons, List.length_nil, Nat.zero_add, hdf]
          symm
          simp only [decide_eq_false_iff_not]
          omega
        · dsimp only
          simp only [List.length_append, List.length_cons, List.length_nil, Nat.zero_add]
          rw [hmaxIdx, if_neg (by omega), if_neg (by omega)]
    · -- the underlying generator is exhausted: record it and buffer undefined
      have hpn2 : p = xs.length := by omega
      have hv : xs.get? s.pulls = none := by
        rw [hpl, ← hpeq, hpn2, List.get?_eq_none]
      have hstep : copyPullStep xs s =
          { s with done := true, maxIndex := some ((s.values.length : Int) - 1),
                   values := s.values ++ [none], pulls := s.pulls + 1 } := by
        rw [copyPullStep, hv]
      have hres : copyResult p (copyPullStep xs s) = expectedRead xs p := by
        rw [hstep, copyResult, expectedRead, dif_neg hpn]
        have hv2 : (s.values ++ [none]).getD p none = none := by
          rw [List.getD_eq_get?, hpeq, List.get?_concat_length]
          rfl
        have hdflag : decide ((p : Int) > (s.values.length : Int) - 1) = true := by
          simp only [decide_eq_true_eq]
          omega
        simp only [hv2, hdflag]
      refine ⟨{ s with
          done := true,
          maxIndex := some ((s.values.length : Int) - 1),
          values := s.values ++ [none],
          pulls := s.pulls + 1,
          cursors := s.cursors.set c (p + 1) }, ?_, ?_, rfl⟩
      · simp only [cursorNext, hc, getIteratorResultAtIndex_step xs p s hpeq.symm hdf fuel,
          hres]
        rw [hstep]
      · refine ⟨?_, ?_, ?_, ?_, ?_, ?_⟩
        · dsimp only
          simp [hpl]
        · dsimp only
          simp only [List.length_append, List.length_cons, List.length_nil, Nat.zero_add]
          have h2 : (xs.map some ++ [(none : Option α)]).take (s.values.length + 1) =
              xs.map some ++ [none] := by
            refine List.take_of_length_le ?_
            simp
            omega
          rw [h2]
          conv_lhs => rw [hval]
          have h1 : (xs.map some ++ [(none : Option α)]).take s.values.length = xs.map some := by
            have hm : s.values.length = xs.length := by omega
            rw [hm]
            have := List.take_left (xs.map some) [(none : Option α)]
            simpa using this
          rw [h1]
        · dsimp only
          simp only [List.length_append, List.length_cons, List.length_nil, Nat.zero_add]
          rw [maxPos_set s.cursors c p (p + 1) hc (by omega)]
          omega
        · dsimp only
          rw [maxPos_set s.cursors c p (p + 1) hc (by omega)]
          omega
        · dsimp only
          simp only [List.length_append, List.length_cons, List.length_nil, Nat.zero_add]
          symm
          simp only [decide_eq_true_eq]
          omega
        · dsimp only
          simp only [List.length_append, List.length_cons, List.length_nil, Nat.zero_add]
          rw [if_pos (by omega)]
          have h4 : (s.values.length : Int) = (xs.length : Int) := by omega
          rw [h4]



theorem copyInit_inv (xs : List α) : CopyInv xs (copyInit : CopySt α) := by
  refine ⟨rfl, rfl, rfl, ?_, ?_, ?_⟩
  · simp [maxPos, copyInit]
  · simp [copyInit]
  · simp [copyInit]

theorem runSched_spec (xs : List α) (fuel : Nat) : ∀ (sched : List CopyEv) (s : CopySt α),
    CopyInv xs s → validSched xs.length sched s.cursors = true →
    ∃ sFin, runSched xs (fuel + 1) sched s = some (sFin, specTrace xs sched s.cursors) ∧
      CopyInv xs sFin ∧ sFin.cursors = specPositions sched s.cursors := by
  intro sched
  induction sched with
  | nil => intro s hinv _; exact ⟨s, rfl, hinv, rfl⟩
  | cons ev evs ih =>
    intro s hinv hvalid
    cases ev with
    | iter =>
      have hinv2 : CopyInv xs (newCursor s) := by
        obtain ⟨h1, h2, h3, h4, h5, h6⟩ := hinv
        refine ⟨h1, h2, ?_, ?_, h5, h6⟩
        · show s.values.length = maxPos (s.cursors ++ [0])
          rw [maxPos_append_zero]
          exact h3
        · show maxPos (s.cursors ++ [0]) ≤ xs.length + 1
          rw [maxPos_append_zero]
          exact h4
      have hval2 : validSched xs.length evs (newCursor s).cursors = true := by
        show validSched xs.length evs (s.cursors ++ [0]) = true
        simpa [validSched] using hvalid
      obtain ⟨sFin, hrun, hinvF, hcursF⟩ := ih (newCursor s) hinv2 hval2
      refine ⟨sFin, ?_, hinvF, ?_⟩
      · simp only [runSched, specTrace]
        exact hrun
      · simp only [specPositions]
        exact hcursF
    | read c =>
      have hv := hvalid
      simp only [validSched] at hv
      cases hcp : s.cursors.get? c with
      | none => rw [hcp] at hv; cases hv
      | some p =>
        rw [hcp] at hv
        simp only [Bool.and_eq_true, decide_eq_true_eq] at hv
        obtain ⟨hple, hvrest⟩ := hv
        obtain ⟨s1, hcn, hinv1, hcurs1⟩ := cursorNext_spec xs fuel c p s hinv hcp hple
        have hval1 : validSched xs.length evs s1.cursors = true := by
          rw [hcurs1]
          exact hvrest
        obtain ⟨sFin, hrun, hinvF, hcursF⟩ := ih s1 hinv1 hval1
        refine ⟨sFin, ?_, hinvF, ?_⟩
        · simp only [runSched, hcn, hrun, specTrace, hcp, hcurs1]
        · simp only [specPositions, hcp]
          rw [← hcurs1]
          exact hcursF



theorem runSched_append (xs : List α) (fuel : Nat) : ∀ (evs1 evs2 : List CopyEv) (s : CopySt α),
    runSched xs fuel (evs1 ++ evs2) s =
      match runSched xs fuel evs1 s with
      | none => none
      | some (s1, t1) =>
        match runSched xs fuel evs2 s1 with
        | none => none
        | some (s2, t2) => some (s2, t1 ++ t2) := by
  intro evs1
  induction evs1 with
  | nil =>
    intro evs2 s
    simp only [List.nil_append, runSched]
    cases h : runSched xs fuel evs2 s with
    | none => simp
    | some r => obtain ⟨s2, t2⟩ := r; simp
  | cons ev evs ih =>
    intro evs2 s
    cases ev with
    | iter =>
      simp only [List.cons_append, runSched]
      exact ih evs2 (newCursor s)
    | read c =>
      simp only [List.cons_append, runSched]
      cases hcn : cursorNext xs fuel c s with
      | none => rfl
      | some r =>
        obtain ⟨res, s1⟩ := r
        simp only [List.append_eq, ih evs2 s1]
        cases h1 : runSched xs fuel evs s1 with
        | none => rfl
        | some r1 =>
          obtain ⟨sm, t1⟩ := r1
          dsimp only
          cases h2 : runSched xs fuel evs2 sm with
          | none => rfl
          | some r2 =>
            obtain ⟨s2, t2⟩ := r2
            simp



/-- C3 counterexample: two complete iterations over `copy([0,1,2])` (n = 3
values, the spec example `copy(range(0,2))`) pull the underlying generator
4 times, not 3: the read that discovers exhaustion performs one final
underlying `next()` call. -/
theorem copy_pull_count_counterexample :
    (runSched ([0, 1, 2] : List Int) 1
        [CopyEv.iter, CopyEv.read 0, CopyEv.read 0, CopyEv.read 0, CopyEv.read 0,
         CopyEv.iter, CopyEv.read 1, CopyEv.read 1, CopyEv.read 1, CopyEv.read 1]
        copyInit).map (fun r => r.1.pulls) = some 4 ∧
    (runSched ([0, 1, 2] : List Int) 1
        [CopyEv.iter, CopyEv.read 0, CopyEv.read 0, CopyEv.read 0, CopyEv.read 0,
         CopyEv.iter, CopyEv.read 1, CopyEv.read 1, CopyEv.read 1, CopyEv.read 1]
        copyInit).map (fun r => r.1.pulls) ≠ some 3 :=
  ⟨by decide, by decide⟩

/-- C3 (amended): over a finite well-behaved underlying sequence, any
interleaving of independent iterations over one `copy` — any number of
cursors created and advanced in any valid order — gives every iteration
the underlying values in the original order followed by the done signal
(the trace equals `specTrace`), and the underlying `next` is pulled
exactly as many times as the furthest position any cursor reached: n
pulls deliver the n values and an iteration that runs to the done signal
adds exactly one exhaustion-detecting pull, for n + 1 in total; re-reading
an already cached position (by any cursor) never pulls, so the total is
independent of how many iterations run or how they interleave. -/
theorem copy_replay : ∀ (α : Type) (xs : List α) (sched : List CopyEv),
    validSched xs.length sched [] = true →
    ∃ sFin, runSched xs 1 sched (copyInit : CopySt α) = some (sFin, specTrace xs sched []) ∧
      CopyInv xs sFin ∧ sFin.pulls = maxPos (specPositions sched []) := by
  intro α xs sched hvalid
  obtain ⟨sFin, hrun, hinvF, hcursF⟩ :=
    runSched_spec xs 0 sched copyInit (copyInit_inv xs) hvalid
  refine ⟨sFin, hrun, hinvF, ?_⟩
  obtain ⟨h1, h2, h3, h4, h5, h6⟩ := hinvF
  rw [h1, h3, hcursF]
  rfl

theorem copy_replay_witness :
    validSched ([0, 1, 2] : List Int).length
      [CopyEv.iter, CopyEv.read 0, CopyEv.iter, CopyEv.read 1, CopyEv.read 0,
       CopyEv.read 1, CopyEv.read 0, CopyEv.read 1, CopyEv.read 0, CopyEv.read 1] [] = true ∧
    ∃ sFin, runSched ([0, 1, 2] : List Int) 1
        [CopyEv.iter, CopyEv.read 0, CopyEv.iter, CopyEv.read 1, CopyEv.read 0,
         CopyEv.read 1, CopyEv.read 0, CopyEv.read 1, CopyEv.read 0, CopyEv.read 1]
        copyInit =
        some (sFin, specTrace [0, 1, 2]
          [CopyEv.iter, CopyEv.read 0, CopyEv.iter, CopyEv.read 1, CopyEv.read 0,
           CopyEv.read 1, CopyEv.read 0, CopyEv.read 1, CopyEv.read 0, CopyEv.read 1] []) ∧
      CopyInv [0, 1, 2] sFin ∧
      sFin.pulls = maxPos (specPositions
        [CopyEv.iter, CopyEv.read 0, CopyEv.iter, CopyEv.read 1, CopyEv.read 0,
         CopyEv.read 1, CopyEv.read 0, CopyEv.read 1, CopyEv.read 0, CopyEv.read 1] []) :=
  ⟨by decide, copy_replay Int [0, 1, 2]
    [CopyEv.iter, CopyEv.read 0, CopyEv.iter, CopyEv.read 1, CopyEv.read 0,
     CopyEv.read 1, CopyEv.read 0, CopyEv.read 1, CopyEv.read 0, CopyEv.read 1] (by decide)⟩

/-- C4: idempotent exhaustion fails for `copy`.  A cursor over
`copy([0,1,2])` returns the three values and then the done signal on its
fourth `next()` call (first conjunct), but the fifth `next()` call never
returns: `getIteratorResultAtIndex` spins in its while loop (done is set,
`values.length <= index`, and the loop body does nothing), so the embedded
run is `none` for every fuel (second conjunct). -/
theorem copy_exhaustion_divergence :
    ((runSched ([0, 1, 2] : List Int) 1
        [CopyEv.iter, CopyEv.read 0, CopyEv.read 0, CopyEv.read 0, CopyEv.read 0]
        copyInit).map (fun r => r.2) =
      some [IterRes.mk false (some 0), IterRes.mk false (some 1),
            IterRes.mk false (some 2), IterRes.mk true none]) ∧
    ∀ fuel, runSched ([0, 1, 2] : List Int) fuel
        ([CopyEv.iter, CopyEv.read 0, CopyEv.read 0, CopyEv.read 0, CopyEv.read 0] ++
          [CopyEv.read 0]) copyInit = none := by
  constructor
  · decide
  · intro fuel
    cases fuel with
    | zero => decide
    | succ f =>
      rw [runSched_append]
      obtain ⟨sFin, hrun, hinvF, hcursF⟩ :=
        runSched_spec ([0, 1, 2] : List Int) f
          [CopyEv.iter, CopyEv.read 0, CopyEv.read 0, CopyEv.read 0, CopyEv.read 0]
          copyInit (copyInit_inv _) (by decide)
      rw [hrun]
      have hc : sFin.cursors.get? 0 = some 4 := by
        rw [hcursF]
        decide
      have hlen4 : sFin.values.length = 4 := by
        obtain ⟨h1, h2, h3, h4, h5, h6⟩ := hinvF
        rw [h3, hcursF]
        decide
      have hdone : sFin.done = true := by
        obtain ⟨h1, h2, h3, h4, h5, h6⟩ := hinvF
        rw [h5, hlen4]
        decide
      simp only [runSched, cursorNext, hc,
        getIteratorResultAtIndex_stuck ([0, 1, 2] : List Int) 4 sFin hdone (by omega) (f + 1)]


end GenUtils
